import Mathlib

/-!
Shallow embedding of the brainfuck interpreter in `src/program.rs`
(`Command`, `Program::compile`, `Program::new`, `Program::run`,
`Program::debug`), together with theorems settling the specification
claims about it.

Modelling conventions:
* machine integers are `Nat` with explicit wrap-around where the Rust
  arithmetic wraps: `u8` cell arithmetic is taken modulo 256 and `usize`
  cursor arithmetic modulo `2 ^ 64` (release-profile wrapping semantics);
* slice / `Vec` indexing and `HashMap` indexing, which panic in Rust when
  out of bounds or on a missing key, are modelled with `Option`: a step
  that would panic produces `Outcome.crash`;
* the `HashMap<usize, usize>` jump table is modelled as an association
  list with insertion at the head, so that `List.lookup` returns the most
  recently inserted binding for a key — exactly `HashMap::insert`
  overwrite semantics;
* the byte streams are lists of bytes (`List Nat`), and `run` is driven
  by explicit fuel since brainfuck programs need not terminate.
-/

namespace BF

/-- The nine instruction tags of `enum Command` in src/program.rs
(`In` is rendered `inp`). -/
inductive Command
  | right
  | left
  | inc
  | dec
  | out
  | inp
  | jmpFwd
  | jmpBack
  | debug
  deriving DecidableEq, Repr

/-- The character table of `Program::compile`: the `match c` arm mapping a
source character to a command, `none` for the `continue` arms (ignored
characters, and `#` when `debug_pound` is false). -/
def charToCommand (debug_pound : Bool) (c : Char) : Option Command :=
  match c with
  | '>' => some .right
  | '<' => some .left
  | '+' => some .inc
  | '-' => some .dec
  | '.' => some .out
  | ',' => some .inp
  | '[' => some .jmpFwd
  | ']' => some .jmpBack
  | '#' => if debug_pound then some .debug else none
  | _ => none

/-- `Program::compile`: scan the source characters in order, keep the
commands, drop everything else. -/
def compile (input : List Char) (debug_pound : Bool) : List Command :=
  input.filterMap (charToCommand debug_pound)

/-- The scan loop of `Program::new` building the jump table.  `i` is the
index of the head of `cs` in the full command list, `jmps` the stack of
pending `[` positions (head = most recently pushed, as `Vec::push` /
`Vec::pop` work at the end), `table` the association-list model of the
`HashMap`.  `jmps.pop().unwrap()` on an empty stack panics in Rust; that
is the `none` result.  Leftover entries of `jmps` at the end of the scan
are not inspected, faithfully to the source. -/
def buildGo : List Command → Nat → List Nat → List (Nat × Nat) →
    Option (List (Nat × Nat))
  | [], _, _, table => some table
  | c :: cs, i, jmps, table =>
    match c with
    | .jmpFwd => buildGo cs (i + 1) (i :: jmps) table
    | .jmpBack =>
      match jmps with
      | [] => none
      | start :: rest =>
        buildGo cs (i + 1) rest ((i, start) :: (start, i) :: table)
    | _ => buildGo cs (i + 1) jmps table

/-- Jump-table construction of `Program::new` (the `for (i, c) in
commands.iter().enumerate()` loop). -/
def buildTable (commands : List Command) : Option (List (Nat × Nat)) :=
  buildGo commands 0 [] []

/-- `struct Program` of src/program.rs: commands, jump table, memory. -/
structure Program where
  commands : List Command
  jmptable : List (Nat × Nat)
  memory : List Nat
  deriving DecidableEq, Repr

/-- `vec![0; 30000]`: the freshly allocated zeroed tape of `Program::new`. -/
def freshMemory : List Nat := List.replicate 30000 0

/-- `Program::new`: build the jump table (panicking — `none` — on an
unmatched `]`), allocate the 30000-byte zeroed tape. -/
def Program.new (commands : List Command) : Option Program :=
  (buildTable commands).map fun table =>
    { commands := commands, jmptable := table, memory := freshMemory }

/-- `Program::from_str` (debug flag off). -/
def Program.fromStr (input : List Char) : Option Program :=
  Program.new (compile input false)

/-- `usize` wraps modulo `2 ^ 64`. -/
def U64 : Nat := 2 ^ 64

/-- The mutable state of one `Program::run` invocation: the fields of
`self` (commands and jmptable are never written, but `run` takes
`&mut self`, so they are part of the state), the two local registers,
and the two byte streams. -/
structure RunState where
  commands : List Command
  jmptable : List (Nat × Nat)
  memory : List Nat
  ptr : Nat
  pc : Nat
  input : List Nat
  output : List Nat
  deriving DecidableEq, Repr

/-- `Program::debug`: the data assembled by the four slice expressions and
the two direct index expressions of the `println!` calls.  A Rust slice
`&v[a..b]` panics unless `a ≤ b ∧ b ≤ v.len()`; `pc - 3` and `ptr - 3` are
wrapping `usize` subtractions. -/
def rustSlice {α : Type} (l : List α) (a b : Nat) : Option (List α) :=
  if a ≤ b ∧ b ≤ l.length then some ((l.drop a).take (b - a)) else none

/-- The snapshot printed by `Program::debug`:
`(pre_com, commands[pc], post_com, pre_mem, memory[ptr], post_mem)`;
`none` when one of the slices or indexings panics. -/
def debug (commands : List Command) (memory : List Nat) (ptr pc : Nat) :
    Option (List Command × Command × List Command × List Nat × Nat × List Nat) := do
  let pre_com ← rustSlice commands ((pc + (U64 - 3)) % U64) pc
  let post_com ← rustSlice commands (pc + 1) (min (pc + 3) commands.length)
  let pre_mem ← rustSlice memory ((ptr + (U64 - 3)) % U64) ptr
  let post_mem ← rustSlice memory (ptr + 1) (min (ptr + 3) memory.length)
  let cur_com ← commands[pc]?
  let cur_mem ← memory[ptr]?
  return (pre_com, cur_com, post_com, pre_mem, cur_mem, post_mem)

/-- One iteration of the `loop` body of `Program::run`: dispatch on
`self.commands[pc]`, then the unconditional `pc += 1`.  `none` models a
panic (out-of-bounds `Vec` index, missing `HashMap` key, or a panic inside
`debug`). -/
def step (s : RunState) : Option RunState :=
  match s.commands[s.pc]? with
  | none => none
  | some c =>
    match c with
    | .right => some { s with ptr := (s.ptr + 1) % U64, pc := s.pc + 1 }
    | .left => some { s with ptr := (s.ptr + (U64 - 1)) % U64, pc := s.pc + 1 }
    | .inc =>
      match s.memory[s.ptr]? with
      | none => none
      | some v =>
        some { s with memory := s.memory.set s.ptr ((v + 1) % 256), pc := s.pc + 1 }
    | .dec =>
      match s.memory[s.ptr]? with
      | none => none
      | some v =>
        some { s with memory := s.memory.set s.ptr ((v + 255) % 256), pc := s.pc + 1 }
    | .out =>
      match s.memory[s.ptr]? with
      | none => none
      | some v =>
        some { s with output := s.output ++ [v], pc := s.pc + 1 }
    | .inp =>
      match s.input with
      | [] => some { s with pc := s.pc + 1 }
      | b :: rest =>
        match s.memory[s.ptr]? with
        | none => none
        | some _ =>
          some { s with memory := s.memory.set s.ptr b, input := rest, pc := s.pc + 1 }
    | .jmpFwd =>
      match s.memory[s.ptr]? with
      | none => none
      | some v =>
        if v = 0 then
          match s.jmptable.lookup s.pc with
          | none => none
          | some t => some { s with pc := t + 1 }
        else
          some { s with pc := s.pc + 1 }
    | .jmpBack =>
      match s.memory[s.ptr]? with
      | none => none
      | some v =>
        if v = 0 then
          some { s with pc := s.pc + 1 }
        else
          match s.jmptable.lookup s.pc with
          | none => none
          | some t => some { s with pc := t + 1 }
    | .debug =>
      (debug s.commands s.memory s.ptr s.pc).map fun _ => { s with pc := s.pc + 1 }

/-- Result of running the loop of `Program::run` for a bounded number of
iterations: `ok` = the loop broke out and `run` returned `Ok(())`,
`crash` = a panic aborted the process in the recorded state (bytes in
`output` were already written and stand), `more` = fuel ran out with the
loop still going. -/
inductive Outcome
  | ok (s : RunState)
  | crash (s : RunState)
  | more (s : RunState)
  deriving DecidableEq, Repr

/-- The `loop { ...; pc += 1; if pc >= self.commands.len() { break } }` of
`Program::run`: a do-while, the body runs before the first termination
check. -/
def loopRun : Nat → RunState → Outcome
  | 0, s => .more s
  | fuel + 1, s =>
    match step s with
    | none => .crash s
    | some s' =>
      if s'.commands.length ≤ s'.pc then .ok s' else loopRun fuel s'

/-- Initial state of `Program::run`: `ptr = 0`, `pc = 0`, fresh output. -/
def RunState.init (p : Program) (input : List Nat) : RunState :=
  { commands := p.commands, jmptable := p.jmptable, memory := p.memory,
    ptr := 0, pc := 0, input := input, output := [] }

/-- `Program::run` on an input stream, with fuel. -/
def Program.run (p : Program) (input : List Nat) (fuel : Nat) : Outcome :=
  loopRun fuel (RunState.init p input)

/-- Did the loop break out normally (`run` returned `Ok(())`)? -/
def Outcome.isOk : Outcome → Bool
  | .ok _ => true
  | _ => false

/-- Did a panic abort the run? -/
def Outcome.isCrash : Outcome → Bool
  | .crash _ => true
  | _ => false

/-- The bytes written to the output stream (they stand even on a crash). -/
def Outcome.outBytes : Outcome → List Nat
  | .ok s => s.output
  | .crash s => s.output
  | .more s => s.output

theorem loopRun_go (fuel : Nat) (s s' : RunState) (h : step s = some s')
    (hlt : s'.pc < s'.commands.length) :
    loopRun (fuel + 1) s = loopRun fuel s' := by
  simp [loopRun, h, Nat.not_le.mpr hlt]

theorem loopRun_done (fuel : Nat) (s s' : RunState) (h : step s = some s')
    (hge : s'.commands.length ≤ s'.pc) :
    loopRun (fuel + 1) s = .ok s' := by
  simp [loopRun, h, hge]

theorem loopRun_crash (fuel : Nat) (s : RunState) (h : step s = none) :
    loopRun (fuel + 1) s = .crash s := by
  simp [loopRun, h]

theorem freshMemory_length : freshMemory.length = 30000 := by
  rw [freshMemory, List.length_replicate]

theorem fresh_cell (i : Nat) (h : i < 30000) : freshMemory[i]? = some 0 := by
  rw [freshMemory, List.getElem?_replicate]
  simp [h]

theorem fresh_cell_oob (i : Nat) (h : 30000 ≤ i) : freshMemory[i]? = none := by
  rw [freshMemory, List.getElem?_replicate]
  simp [Nat.not_lt.mpr h]

/-- Claim C1: an execution step at an `Increment` replaces the current cell
`tape[ptr]` with `(tape[ptr] + 1) % 256` and at a `Decrement` with
`(tape[ptr] - 1) % 256` (as wrapping arithmetic, `(tape[ptr] + 255) % 256`),
with no fault and no saturation — a cell holding 255 increments to 0 and a
cell holding 0 decrements to 255 — and every other cell is left
unchanged. -/
theorem cell_arithmetic_wraps (s : RunState) (v : Nat)
    (hv : s.memory[s.ptr]? = some v) :
    (s.commands[s.pc]? = some Command.inc →
      step s = some { s with memory := s.memory.set s.ptr ((v + 1) % 256),
                             pc := s.pc + 1 } ∧
      (s.memory.set s.ptr ((v + 1) % 256))[s.ptr]? = some ((v + 1) % 256) ∧
      ∀ j, j ≠ s.ptr → (s.memory.set s.ptr ((v + 1) % 256))[j]? = s.memory[j]?) ∧
    (s.commands[s.pc]? = some Command.dec →
      step s = some { s with memory := s.memory.set s.ptr ((v + 255) % 256),
                             pc := s.pc + 1 } ∧
      (s.memory.set s.ptr ((v + 255) % 256))[s.ptr]? = some ((v + 255) % 256) ∧
      ∀ j, j ≠ s.ptr → (s.memory.set s.ptr ((v + 255) % 256))[j]? = s.memory[j]?) ∧
    (v = 255 → (v + 1) % 256 = 0) ∧ (v = 0 → (v + 255) % 256 = 255) := by
  have hlen : s.ptr < s.memory.length := (List.getElem?_eq_some.mp hv).1
  refine ⟨fun hc => ⟨?_, ?_, ?_⟩, fun hc => ⟨?_, ?_, ?_⟩, ?_, ?_⟩
  · simp [step, hc, hv]
  · exact List.getElem?_set_self hlen
  · exact fun j hj => List.getElem?_set_ne (Ne.symm hj)
  · simp [step, hc, hv]
  · exact List.getElem?_set_self hlen
  · exact fun j hj => List.getElem?_set_ne (Ne.symm hj)
  · omega
  · omega

theorem cell_arithmetic_wraps_witness :
    step ⟨[Command.inc], [], [255], 0, 0, [], []⟩ =
      some ⟨[Command.inc], [], [0], 0, 1, [], []⟩ ∧
    step ⟨[Command.dec], [], [0], 0, 0, [], []⟩ =
      some ⟨[Command.dec], [], [255], 0, 1, [], []⟩ := by
  have h1 := ((cell_arithmetic_wraps ⟨[Command.inc], [], [255], 0, 0, [], []⟩
    255 rfl).1 rfl).1
  have h2 := ((cell_arithmetic_wraps ⟨[Command.dec], [], [0], 0, 0, [], []⟩
    0 rfl).2.1 rfl).1
  exact ⟨h1.trans rfl, h2.trans rfl⟩

/-- Claim C4: a taken jump (`JumpIfZero` on a zero cell, `JumpIfNonZero` on
a nonzero cell) sets `pc` to the jump table's entry for the current `pc`
(the partner bracket's own index), after which the generic post-step `+1`
still applies, so the step ends with `pc = partner + 1`; a non-taken jump
falls through to `pc + 1`; in both cases tape, cursor, input and output are
unchanged (the result differs from `s` only in `pc`). -/
theorem jump_semantics (s : RunState) (v t : Nat)
    (hv : s.memory[s.ptr]? = some v) :
    (s.commands[s.pc]? = some Command.jmpFwd → v = 0 →
      s.jmptable.lookup s.pc = some t → step s = some { s with pc := t + 1 }) ∧
    (s.commands[s.pc]? = some Command.jmpBack → v ≠ 0 →
      s.jmptable.lookup s.pc = some t → step s = some { s with pc := t + 1 }) ∧
    (s.commands[s.pc]? = some Command.jmpFwd → v ≠ 0 →
      step s = some { s with pc := s.pc + 1 }) ∧
    (s.commands[s.pc]? = some Command.jmpBack → v = 0 →
      step s = some { s with pc := s.pc + 1 }) := by
  refine ⟨fun hc h0 ht => ?_, fun hc h0 ht => ?_, fun hc h0 => ?_, fun hc h0 => ?_⟩
  · simp [step, hc, hv, h0, ht]
  · simp [step, hc, hv, h0, ht]
  · simp [step, hc, hv, h0]
  · simp [step, hc, hv, h0]

theorem jump_semantics_witness :
    step ⟨[Command.jmpFwd, Command.jmpBack], [(1, 0), (0, 1)], [0], 0, 0, [], []⟩ =
      some ⟨[Command.jmpFwd, Command.jmpBack], [(1, 0), (0, 1)], [0], 0, 2, [], []⟩ ∧
    step ⟨[Command.jmpFwd, Command.jmpBack], [(1, 0), (0, 1)], [5], 0, 1, [], []⟩ =
      some ⟨[Command.jmpFwd, Command.jmpBack], [(1, 0), (0, 1)], [5], 0, 1, [], []⟩ ∧
    step ⟨[Command.jmpFwd, Command.jmpBack], [(1, 0), (0, 1)], [5], 0, 0, [], []⟩ =
      some ⟨[Command.jmpFwd, Command.jmpBack], [(1, 0), (0, 1)], [5], 0, 1, [], []⟩ ∧
    step ⟨[Command.jmpFwd, Command.jmpBack], [(1, 0), (0, 1)], [0], 0, 1, [], []⟩ =
      some ⟨[Command.jmpFwd, Command.jmpBack], [(1, 0), (0, 1)], [0], 0, 2, [], []⟩ := by
  refine ⟨?_, ?_, ?_, ?_⟩
  · exact ((jump_semantics ⟨[Command.jmpFwd, Command.jmpBack], [(1, 0), (0, 1)],
      [0], 0, 0, [], []⟩ 0 1 rfl).1 rfl rfl rfl).trans rfl
  · exact ((jump_semantics ⟨[Command.jmpFwd, Command.jmpBack], [(1, 0), (0, 1)],
      [5], 0, 1, [], []⟩ 5 0 rfl).2.1 rfl (by decide) rfl).trans rfl
  · exact ((jump_semantics ⟨[Command.jmpFwd, Command.jmpBack], [(1, 0), (0, 1)],
      [5], 0, 0, [], []⟩ 5 0 rfl).2.2.1 rfl (by decide)).trans rfl
  · exact ((jump_semantics ⟨[Command.jmpFwd, Command.jmpBack], [(1, 0), (0, 1)],
      [0], 0, 1, [], []⟩ 0 0 rfl).2.2.2 rfl rfl).trans rfl

theorem run_inp_out (m : List Nat) (hv : m[0]? = some 0) :
    Program.run ⟨[Command.inp, Command.out], [], m⟩ [] 2 =
      Outcome.ok ⟨[Command.inp, Command.out], [], m, 0, 2, [], [0]⟩ := by
  have h1 : step ⟨[Command.inp, Command.out], [], m, 0, 0, [], []⟩ =
      some ⟨[Command.inp, Command.out], [], m, 0, 1, [], []⟩ := by
    simp [step]
  have h2 : step ⟨[Command.inp, Command.out], [], m, 0, 1, [], []⟩ =
      some ⟨[Command.inp, Command.out], [], m, 0, 2, [], [0]⟩ := by
    simp [step, hv]
  show loopRun 2 ⟨[Command.inp, Command.out], [], m, 0, 0, [], []⟩ = _
  rw [show (2 : Nat) = 1 + 1 from rfl, loopRun_go 1 _ _ h1 (by simp),
    show (1 : Nat) = 0 + 1 from rfl, loopRun_done 0 _ _ h2 (by simp)]

/-- Claim C6: executing `Input` with the input stream at end-of-stream is
not a fault but a no-op: the step succeeds and changes nothing but `pc` (in
particular `tape[ptr]` is left as it was, not zero-filled); and the program
`[Input, Output]`, run against an empty input stream on a fresh `Program`,
terminates successfully with exactly the single output byte 0. -/
theorem input_eof_noop (s : RunState) (hin : s.input = [])
    (hc : s.commands[s.pc]? = some Command.inp) :
    step s = some { s with pc := s.pc + 1 } ∧
    (Program.new [Command.inp, Command.out]).map (fun p => p.run [] 2) =
      some (Outcome.ok
        { commands := [Command.inp, Command.out], jmptable := [],
          memory := freshMemory, ptr := 0, pc := 2,
          input := [], output := [0] }) := by
  constructor
  · simp [step, hc, hin]
  · have hnew : Program.new [Command.inp, Command.out] =
        some ⟨[Command.inp, Command.out], [], freshMemory⟩ := rfl
    rw [hnew, Option.map_some',
      run_inp_out freshMemory (fresh_cell 0 (by norm_num))]

theorem input_eof_noop_witness :
    step ⟨[Command.inp], [], [7], 0, 0, [], []⟩ =
      some ⟨[Command.inp], [], [7], 0, 1, [], []⟩ := by
  exact ((input_eof_noop ⟨[Command.inp], [], [7], 0, 0, [], []⟩ rfl rfl).1).trans rfl

/-- Claim C10: a successful step never modifies the command sequence or the
jump table, and when the command executed is `MoveRight`, `MoveLeft`,
`Output`, `JumpIfZero`, `JumpIfNonZero` or `DebugPrint` it leaves the whole
memory tape unchanged (only `Increment`, `Decrement` and `Input` can write
to the tape). -/
theorem step_frame (s s' : RunState) (h : step s = some s') :
    s'.commands = s.commands ∧ s'.jmptable = s.jmptable ∧
    ((s.commands[s.pc]? = some Command.right ∨
      s.commands[s.pc]? = some Command.left ∨
      s.commands[s.pc]? = some Command.out ∨
      s.commands[s.pc]? = some Command.jmpFwd ∨
      s.commands[s.pc]? = some Command.jmpBack ∨
      s.commands[s.pc]? = some Command.debug) → s'.memory = s.memory) := by
  rcases hc : s.commands[s.pc]? with _ | c
  · simp only [step, hc] at h
    exact Option.noConfusion h
  case some =>
    cases c
    case debug =>
      simp only [step, hc] at h
      rcases Option.map_eq_some'.mp h with ⟨d, _, heq⟩
      subst heq
      exact ⟨rfl, rfl, fun _ => rfl⟩
    all_goals
      (simp only [step, hc] at h; repeat' split at h) <;>
      first
        | exact Option.noConfusion h
        | (injection h with h; subst h;
           refine ⟨rfl, rfl, fun hd => ?_⟩;
           first
             | rfl
             | (rcases hd with h1 | h1 | h1 | h1 | h1 | h1 <;>
                 exact absurd h1 (by decide)))

theorem step_frame_witness :
    (⟨[Command.out], [], [3], 0, 1, [], [3]⟩ : RunState).commands =
      (⟨[Command.out], [], [3], 0, 0, [], []⟩ : RunState).commands ∧
    (⟨[Command.out], [], [3], 0, 1, [], [3]⟩ : RunState).jmptable =
      (⟨[Command.out], [], [3], 0, 0, [], []⟩ : RunState).jmptable ∧
    (((⟨[Command.out], [], [3], 0, 0, [], []⟩ : RunState).commands[
        (⟨[Command.out], [], [3], 0, 0, [], []⟩ : RunState).pc]? =
          some Command.right ∨
      (⟨[Command.out], [], [3], 0, 0, [], []⟩ : RunState).commands[
        (⟨[Command.out], [], [3], 0, 0, [], []⟩ : RunState).pc]? =
          some Command.left ∨
      (⟨[Command.out], [], [3], 0, 0, [], []⟩ : RunState).commands[
        (⟨[Command.out], [], [3], 0, 0, [], []⟩ : RunState).pc]? =
          some Command.out ∨
      (⟨[Command.out], [], [3], 0, 0, [], []⟩ : RunState).commands[
        (⟨[Command.out], [], [3], 0, 0, [], []⟩ : RunState).pc]? =
          some Command.jmpFwd ∨
      (⟨[Command.out], [], [3], 0, 0, [], []⟩ : RunState).commands[
        (⟨[Command.out], [], [3], 0, 0, [], []⟩ : RunState).pc]? =
          some Command.jmpBack ∨
      (⟨[Command.out], [], [3], 0, 0, [], []⟩ : RunState).commands[
        (⟨[Command.out], [], [3], 0, 0, [], []⟩ : RunState).pc]? =
          some Command.debug) →
      (⟨[Command.out], [], [3], 0, 1, [], [3]⟩ : RunState).memory =
        (⟨[Command.out], [], [3], 0, 0, [], []⟩ : RunState).memory) :=
  step_frame ⟨[Command.out], [], [3], 0, 0, [], []⟩
    ⟨[Command.out], [], [3], 0, 1, [], [3]⟩ rfl

/-- Claim C7 (code bug): the spec says execution terminates normally exactly
when `pc` reaches the length of the instruction sequence, so a `Program`
with an empty compiled sequence (`pc = 0 = length` at the start) should
terminate immediately and successfully.  The run loop is a do-while: it
evaluates `self.commands[pc]` before any termination check, so on the empty
sequence it indexes an empty `Vec` and panics.  This theorem evaluates the
code at the failing input: for any input and any fuel the run of the empty
program crashes in its initial state, producing no output. -/
theorem empty_program_crashes (input : List Nat) (fuel : Nat) :
    (Program.new []).map (fun p => p.run input (fuel + 1)) =
      some (Outcome.crash ⟨[], [], freshMemory, 0, 0, input, []⟩) := by
  have hnew : Program.new [] = some ⟨[], [], freshMemory⟩ := rfl
  rw [hnew, Option.map_some']
  show some (loopRun (fuel + 1) ⟨[], [], freshMemory, 0, 0, input, []⟩) = _
  rw [loopRun_crash fuel _ (by simp [step])]

/-- Claim C3 counterexample: the program consisting of the single command
`MoveLeft`, run on a fresh `Program`, moves the cursor below 0 and yet the
run terminates successfully (`Ok(())`, no `OutOfBounds` fault, no abort at
that instruction): the `usize` cursor wraps to `2^64 - 1` and the loop
exits because `pc` reached the length. -/
theorem move_left_no_fault_cex :
    (Program.new [Command.left]).map (fun p => p.run [] 1) =
      some (Outcome.ok ⟨[Command.left], [], freshMemory, U64 - 1, 1, [], []⟩) := by
  have hnew : Program.new [Command.left] = some ⟨[Command.left], [], freshMemory⟩ := rfl
  rw [hnew, Option.map_some']
  have hstep : step ⟨[Command.left], [], freshMemory, 0, 0, [], []⟩ =
      some ⟨[Command.left], [], freshMemory, U64 - 1, 1, [], []⟩ := by
    simp only [step, List.getElem?_cons_zero]
    norm_num [U64]
  show some (loopRun 1 ⟨[Command.left], [], freshMemory, 0, 0, [], []⟩) = _
  rw [show (1 : Nat) = 0 + 1 from rfl, loopRun_done 0 _ _ hstep (by simp)]

/-- Claim C3 as amended: cursor movement itself is unchecked — `MoveLeft`
wraps the `usize` cursor modulo `2^64` (taking it from 0 to `2^64 - 1`)
and `MoveRight` just increments, neither faults by itself; execution
aborts (with an index panic, not an error value returned to the caller)
only when a later instruction accesses the tape at the out-of-bounds
cursor, and the output bytes already written before that abort stand. -/
theorem oob_movement_unchecked (s : RunState) (n : Nat) :
    (s.commands[s.pc]? = some Command.left →
      step s = some { s with ptr := (s.ptr + (U64 - 1)) % U64, pc := s.pc + 1 }) ∧
    (s.commands[s.pc]? = some Command.right →
      step s = some { s with ptr := (s.ptr + 1) % U64, pc := s.pc + 1 }) ∧
    (s.memory[s.ptr]? = none →
      (s.commands[s.pc]? = some Command.inc ∨
       s.commands[s.pc]? = some Command.dec ∨
       s.commands[s.pc]? = some Command.out) →
      step s = none ∧ loopRun (n + 1) s = .crash s ∧
        (loopRun (n + 1) s).outBytes = s.output) := by
  refine ⟨fun hc => ?_, fun hc => ?_, fun hm hc => ?_⟩
  · simp [step, hc]
  · simp [step, hc]
  · have hs : step s = none := by
      rcases hc with hc | hc | hc <;> simp [step, hc, hm]
    refine ⟨hs, loopRun_crash n s hs, ?_⟩
    rw [loopRun_crash n s hs]
    rfl

theorem oob_movement_unchecked_witness :
    step ⟨[Command.left], [], [5], 0, 0, [], []⟩ =
      some ⟨[Command.left], [], [5], (0 + (U64 - 1)) % U64, 0 + 1, [], []⟩ ∧
    step ⟨[Command.inc], [], [5], 1, 0, [], [9]⟩ = none ∧
    loopRun 1 ⟨[Command.inc], [], [5], 1, 0, [], [9]⟩ =
      Outcome.crash ⟨[Command.inc], [], [5], 1, 0, [], [9]⟩ ∧
    (loopRun 1 ⟨[Command.inc], [], [5], 1, 0, [], [9]⟩).outBytes = [9] := by
  have h1 := (oob_movement_unchecked ⟨[Command.left], [], [5], 0, 0, [], []⟩ 0).1 rfl
  have h3 := (oob_movement_unchecked ⟨[Command.inc], [], [5], 1, 0, [], [9]⟩ 0).2.2
    rfl (Or.inl rfl)
  exact ⟨h1, h3.1, h3.2.1, h3.2.2⟩

/-- Claim C9 as amended: `DebugPrint` gathers `pc`, `ptr`, the instruction
at `pc` and the cell at `ptr` with a context window of exactly 3
instructions/cells before and at most 2 after, clipped at the upper
sequence/tape boundary only; the lower edge is not clamped, so whenever
`pc < 3` or `ptr < 3` the slice computation faults (the diagnostic is
`none`, an index panic at runtime) instead of clipping. -/
theorem debug_window (commands : List Command) (memory : List Nat) (ptr pc : Nat) :
    (pc < 3 → debug commands memory ptr pc = none) ∧
    (ptr < 3 → debug commands memory ptr pc = none) ∧
    (min (pc + 3) commands.length - (pc + 1) ≤ 2 ∧
      min (ptr + 3) memory.length - (ptr + 1) ≤ 2) ∧
    (3 ≤ pc → 3 ≤ ptr → pc < commands.length → ptr < memory.length →
      pc < U64 → ptr < U64 →
      debug commands memory ptr pc =
        commands[pc]?.bind fun c => memory[ptr]?.bind fun v =>
          some ((commands.drop (pc - 3)).take 3, c,
            (commands.drop (pc + 1)).take (min (pc + 3) commands.length - (pc + 1)),
            (memory.drop (ptr - 3)).take 3, v,
            (memory.drop (ptr + 1)).take (min (ptr + 3) memory.length - (ptr + 1)))) := by
  refine ⟨fun hpc => ?_, fun hptr => ?_, ⟨by omega, by omega⟩, ?_⟩
  · have h1 : rustSlice commands ((pc + (U64 - 3)) % U64) pc = none := by
      simp only [rustSlice]
      rw [if_neg]
      intro hh
      have h2 := hh.1
      unfold U64 at h2
      omega
    unfold debug
    rw [h1]
    rfl
  · rcases h1 : rustSlice commands ((pc + (U64 - 3)) % U64) pc with _ | pre
    · unfold debug
      rw [h1]
      rfl
    · rcases h2 : rustSlice commands (pc + 1) (min (pc + 3) commands.length)
        with _ | post
      · unfold debug
        rw [h1, h2]
        rfl
      · have h3 : rustSlice memory ((ptr + (U64 - 3)) % U64) ptr = none := by
          simp only [rustSlice]
          rw [if_neg]
          intro hh
          have h4 := hh.1
          unfold U64 at h4
          omega
        unfold debug
        rw [h1, h2, h3]
        rfl
  · intro hpc hptr hpclen hptrlen hpcU hptrU
    have ha : (pc + (U64 - 3)) % U64 = pc - 3 := by unfold U64 at *; omega
    have hb : (ptr + (U64 - 3)) % U64 = ptr - 3 := by unfold U64 at *; omega
    have h1 : rustSlice commands ((pc + (U64 - 3)) % U64) pc =
        some ((commands.drop (pc - 3)).take 3) := by
      rw [ha]
      simp only [rustSlice]
      rw [if_pos ⟨by omega, by omega⟩, show pc - (pc - 3) = 3 from by omega]
    have h2 : rustSlice commands (pc + 1) (min (pc + 3) commands.length) =
        some ((commands.drop (pc + 1)).take
          (min (pc + 3) commands.length - (pc + 1))) := by
      simp only [rustSlice]
      rw [if_pos ⟨by omega, by omega⟩]
    have h3 : rustSlice memory ((ptr + (U64 - 3)) % U64) ptr =
        some ((memory.drop (ptr - 3)).take 3) := by
      rw [hb]
      simp only [rustSlice]
      rw [if_pos ⟨by omega, by omega⟩, show ptr - (ptr - 3) = 3 from by omega]
    have h4 : rustSlice memory (ptr + 1) (min (ptr + 3) memory.length) =
        some ((memory.drop (ptr + 1)).take
          (min (ptr + 3) memory.length - (ptr + 1))) := by
      simp only [rustSlice]
      rw [if_pos ⟨by omega, by omega⟩]
    unfold debug
    rw [h1, h2, h3, h4]
    rfl

/-- Claim C9 counterexample: a `DebugPrint` executed at `pc = 0` (< 3)
does fault — the program consisting of the single `DebugPrint` command,
run on a fresh `Program`, crashes in its initial state instead of printing
a clipped window. -/
theorem debug_run_crash_cex :
    (Program.new [Command.debug]).map (fun p => p.run [] 1) =
      some (Outcome.crash ⟨[Command.debug], [], freshMemory, 0, 0, [], []⟩) := by
  have hnew : Program.new [Command.debug] =
      some ⟨[Command.debug], [], freshMemory⟩ := rfl
  rw [hnew, Option.map_some']
  have h1 : rustSlice [Command.debug] ((0 + (U64 - 3)) % U64) 0 = none := by
    simp only [rustSlice]
    rw [if_neg]
    intro hh
    have h2 := hh.1
    unfold U64 at h2
    omega
  have hd : debug [Command.debug] freshMemory 0 0 = none := by
    unfold debug
    rw [h1]
    rfl
  have hstep : step ⟨[Command.debug], [], freshMemory, 0, 0, [], []⟩ = none := by
    simp [step, hd]
  show some (loopRun 1 ⟨[Command.debug], [], freshMemory, 0, 0, [], []⟩) = _
  rw [show (1 : Nat) = 0 + 1 from rfl, loopRun_crash 0 _ hstep]

theorem debug_window_witness :
    debug [Command.inc, Command.inc, Command.inc, Command.debug, Command.out]
        [1, 2, 3, 4, 5] 3 3 =
      some ([Command.inc, Command.inc, Command.inc], Command.debug, [Command.out],
        [1, 2, 3], 4, [5]) ∧
    debug [Command.debug] [0] 0 0 = none ∧
    debug [Command.inc, Command.inc, Command.inc, Command.debug] [9] 0 3 = none := by
  refine ⟨?_, ?_, ?_⟩
  · exact ((debug_window [Command.inc, Command.inc, Command.inc, Command.debug,
      Command.out] [1, 2, 3, 4, 5] 3 3).2.2.2 (by decide) (by decide)
      (by decide) (by decide) (by norm_num [U64]) (by norm_num [U64])).trans
      rfl
  · exact (debug_window [Command.debug] [0] 0 0).1 (by decide)
  · exact (debug_window [Command.inc, Command.inc, Command.inc, Command.debug]
      [9] 0 3).2.1 (by decide)

theorem filterMap_filter_isSome (f : Char → Option Command) (l : List Char) :
    l.filterMap f = (l.filter fun c => (f c).isSome).filterMap f := by
  induction l with
  | nil => rfl
  | cons c l ih =>
    cases hf : f c <;>
      simp [List.filterMap_cons, List.filter_cons, hf, ih]

/-- Claim C8: compilation is comment-transparent and deterministic — if two
source texts agree after erasing all non-instruction characters (the
characters `charToCommand` drops for the given debug flag), then they
compile to the same instruction sequence, construction yields the same
`Program` (same jump table), and any run of the two programs on the same
input stream is identical. -/
theorem compile_comment_transparent (debug_pound : Bool) (s1 s2 : List Char)
    (h : s1.filter (fun c => (charToCommand debug_pound c).isSome) =
         s2.filter (fun c => (charToCommand debug_pound c).isSome)) :
    compile s1 debug_pound = compile s2 debug_pound ∧
    Program.new (compile s1 debug_pound) = Program.new (compile s2 debug_pound) ∧
    ∀ (input : List Nat) (fuel : Nat),
      (Program.new (compile s1 debug_pound)).map (fun p => p.run input fuel) =
      (Program.new (compile s2 debug_pound)).map (fun p => p.run input fuel) := by
  have hc : compile s1 debug_pound = compile s2 debug_pound := by
    rw [compile, compile, filterMap_filter_isSome, h, ← filterMap_filter_isSome]
  exact ⟨hc, by rw [hc], fun input fuel => by rw [hc]⟩

theorem compile_comment_transparent_witness :
    compile ['+', 'a', '+'] false = compile ['+', '+', 'b'] false ∧
    Program.new (compile ['+', 'a', '+'] false) =
      Program.new (compile ['+', '+', 'b'] false) ∧
    ∀ (input : List Nat) (fuel : Nat),
      (Program.new (compile ['+', 'a', '+'] false)).map (fun p => p.run input fuel) =
      (Program.new (compile ['+', '+', 'b'] false)).map (fun p => p.run input fuel) :=
  compile_comment_transparent false ['+', 'a', '+'] ['+', '+', 'b'] (by decide)

/-- Occurrence counter for one command tag, used to state bracket-balance
conditions on prefixes of the instruction sequence. -/
def countCmd (t : Command) : List Command → Nat
  | [] => 0
  | c :: cs => (if c = t then 1 else 0) + countCmd t cs

theorem countCmd_cons_self (t : Command) (l : List Command) :
    countCmd t (t :: l) = countCmd t l + 1 := by
  simp [countCmd]
  omega

theorem countCmd_cons_ne (t c : Command) (h : c ≠ t) (l : List Command) :
    countCmd t (c :: l) = countCmd t l := by
  simp [countCmd, h]

theorem buildGo_cons_neutral (c : Command) (hf : c ≠ Command.jmpFwd)
    (hb : c ≠ Command.jmpBack) (cs : List Command) (i : Nat) (jmps : List Nat)
    (table : List (Nat × Nat)) :
    buildGo (c :: cs) i jmps table = buildGo cs (i + 1) jmps table := by
  cases c <;> first | rfl | exact absurd rfl hf | exact absurd rfl hb

theorem buildGo_eq_none_iff (cs : List Command) :
    ∀ (i : Nat) (jmps : List Nat) (table : List (Nat × Nat)),
    (buildGo cs i jmps table = none ↔
      ∃ k, cs[k]? = some Command.jmpBack ∧
        countCmd Command.jmpFwd (cs.take k) + jmps.length ≤
          countCmd Command.jmpBack (cs.take k)) := by
  induction cs with
  | nil =>
    intro i jmps table
    simp [buildGo]
  | cons c cs ih =>
    intro i jmps table
    cases c
    case jmpFwd =>
      rw [show buildGo (Command.jmpFwd :: cs) i jmps table =
        buildGo cs (i + 1) (i :: jmps) table from rfl, ih]
      constructor
      · rintro ⟨k, hk, hcnt⟩
        refine ⟨k + 1, by simpa using hk, ?_⟩
        rw [List.take_succ_cons, countCmd_cons_self,
          countCmd_cons_ne _ _ (by decide)]
        rw [List.length_cons] at hcnt
        omega
      · rintro ⟨k, hk, hcnt⟩
        match k with
        | 0 => simp at hk
        | k + 1 =>
          refine ⟨k, by simpa using hk, ?_⟩
          rw [List.take_succ_cons, countCmd_cons_self,
            countCmd_cons_ne _ _ (by decide)] at hcnt
          rw [List.length_cons]
          omega
    case jmpBack =>
      match jmps with
      | [] =>
        refine ⟨fun _ => ⟨0, by simp, by simp [countCmd]⟩, fun _ => rfl⟩
      | s :: rest =>
        rw [show buildGo (Command.jmpBack :: cs) i (s :: rest) table =
          buildGo cs (i + 1) rest ((i, s) :: (s, i) :: table) from rfl, ih]
        constructor
        · rintro ⟨k, hk, hcnt⟩
          refine ⟨k + 1, by simpa using hk, ?_⟩
          rw [List.take_succ_cons, countCmd_cons_self,
            countCmd_cons_ne _ _ (by decide), List.length_cons]
          omega
        · rintro ⟨k, hk, hcnt⟩
          match k with
          | 0 =>
            simp [countCmd] at hcnt
          | k + 1 =>
            refine ⟨k, by simpa using hk, ?_⟩
            rw [List.take_succ_cons, countCmd_cons_self,
              countCmd_cons_ne _ _ (by decide), List.length_cons] at hcnt
            omega
    all_goals (
      rw [buildGo_cons_neutral _ (by decide) (by decide), ih]
      constructor
      · rintro ⟨k, hk, hcnt⟩
        refine ⟨k + 1, by simpa using hk, ?_⟩
        rw [List.take_succ_cons, countCmd_cons_ne _ _ (by decide),
          countCmd_cons_ne _ _ (by decide)]
        omega
      · rintro ⟨k, hk, hcnt⟩
        match k with
        | 0 => simp at hk
        | k + 1 =>
          refine ⟨k, by simpa using hk, ?_⟩
          rw [List.take_succ_cons, countCmd_cons_ne _ _ (by decide),
            countCmd_cons_ne _ _ (by decide)] at hcnt
          omega)

/-- Claim C2 as amended: construction aborts — through the `unwrap()` panic
on an empty pop, modelled as `none`, not through a structured
`UnbalancedJump` error value returned to the caller — exactly when some
`JumpIfNonZero` is reached with the pending stack empty (declaratively:
some position `k` holds `JumpIfNonZero` and the prefix before `k` contains
no more `JumpIfZero` than `JumpIfNonZero` commands).  Unmatched pending
`JumpIfZero` positions left over after the scan are NOT detected:
construction succeeds on such sequences and those positions are simply
absent from the jump table. -/
theorem construction_failure_iff (cs : List Command) :
    Program.new cs = none ↔
      ∃ k, cs[k]? = some Command.jmpBack ∧
        countCmd Command.jmpFwd (cs.take k) ≤
          countCmd Command.jmpBack (cs.take k) := by
  rw [Program.new, Option.map_eq_none', buildTable]
  have h := buildGo_eq_none_iff cs 0 [] []
  simpa using h

/-- Claim C2 counterexample: the malformed sequence `[JumpIfZero]` (one
unmatched `[`) is accepted by construction — no fault of any kind, the
unmatched position is just missing from the table — while `[JumpIfNonZero]`
makes construction abort via a panic (`none`), not via an error value. -/
theorem unmatched_open_accepted_cex :
    Program.new [Command.jmpFwd] = some ⟨[Command.jmpFwd], [], freshMemory⟩ ∧
    Program.new [Command.jmpBack] = none := ⟨rfl, rfl⟩

/-- Bracket-depth scan: `none` when a `JumpIfNonZero` occurs at depth 0,
otherwise the depth after the segment. -/
def balAux : List Command → Nat → Option Nat
  | [], d => some d
  | c :: cs, d =>
    match c with
    | .jmpFwd => balAux cs (d + 1)
    | .jmpBack => if d = 0 then none else balAux cs (d - 1)
    | _ => balAux cs d

/-- A segment is bracket-balanced: scanning from depth 0 never dips below 0
and ends at depth 0. -/
def balanced (l : List Command) : Prop := balAux l 0 = some 0

theorem balAux_append (l1 l2 : List Command) (d : Nat) :
    balAux (l1 ++ l2) d = (balAux l1 d).bind fun e => balAux l2 e := by
  induction l1 generalizing d with
  | nil => rfl
  | cons c l1 ih =>
    cases c <;> simp only [List.cons_append, balAux] <;>
      first
      | exact ih _
      | (by_cases hd : d = 0 <;> simp [hd, ih])

theorem balAux_shift (l : List Command) (d e k : Nat) (h : balAux l d = some e) :
    balAux l (d + k) = some (e + k) := by
  induction l generalizing d e with
  | nil =>
    simp only [balAux] at h ⊢
    exact congrArg some (by injection h with h; omega)
  | cons c l ih =>
    cases c <;> simp only [balAux] at h ⊢
    case jmpFwd =>
      rw [show d + k + 1 = d + 1 + k from by omega]
      exact ih _ _ h
    case jmpBack =>
      by_cases hd : d = 0
      · simp [hd] at h
      · rw [if_neg hd] at h
        rw [if_neg (by omega)]
        rw [show d + k - 1 = d - 1 + k from by omega]
        exact ih _ _ h
    all_goals exact ih _ _ h

theorem balanced_nil : balanced [] := rfl

theorem balanced_neutral (l : List Command) (c : Command)
    (hf : c ≠ Command.jmpFwd) (hb : c ≠ Command.jmpBack)
    (h : balanced l) : balanced (l ++ [c]) := by
  rw [balanced, balAux_append, h]
  cases c <;> first | rfl | exact absurd rfl hf | exact absurd rfl hb

theorem balanced_wrap (l1 l2 : List Command) (h1 : balanced l1) (h2 : balanced l2) :
    balanced ((l1 ++ [Command.jmpFwd]) ++ l2 ++ [Command.jmpBack]) := by
  have hl2 : balAux l2 1 = some 1 := by
    have hs := balAux_shift l2 0 0 1 h2
    simpa using hs
  rw [balanced, balAux_append, balAux_append, balAux_append, h1]
  simp only [Option.some_bind]
  rw [show balAux [Command.jmpFwd] 0 = some 1 from rfl]
  simp only [Option.some_bind]
  rw [hl2]
  simp only [Option.some_bind]
  rfl

theorem seg_snoc (l : List Command) (c : Command) (a m : Nat) (ham : a ≤ m)
    (hm : l[m]? = some c) :
    (l.take (m + 1)).drop a = (l.take m).drop a ++ [c] := by
  rw [List.take_succ, hm]
  rw [List.drop_append_of_le_length]
  · rfl
  · have hlen : m < l.length := (List.getElem?_eq_some.mp hm).1
    rw [List.length_take]
    omega

theorem seg_trans (l : List Command) (a m n : Nat) (h1 : a ≤ m) (h2 : m ≤ n)
    (h3 : n ≤ l.length) :
    (l.take n).drop a = (l.take m).drop a ++ (l.take n).drop m := by
  have ht : l.take m = (l.take n).take m := by rw [List.take_take, min_eq_left h2]
  rw [ht]
  conv_lhs => rw [← List.take_append_drop m (l.take n)]
  rw [List.drop_append_of_le_length]
  simp only [List.length_take]
  omega

/-- `i` and `j` form a matching bracket pair of `cs`: `[` at `i`, `]` at
`j`, and the strictly-inner segment is balanced — the declarative statement
of "the most recently opened, unmatched JumpIfZero is the partner of the
next JumpIfNonZero". -/
def isMatch (cs : List Command) (i j : Nat) : Prop :=
  cs[i]? = some Command.jmpFwd ∧ cs[j]? = some Command.jmpBack ∧ i < j ∧
    balanced ((cs.take j).drop (i + 1))

/-- The pending-stack geometry during the scan: each stack entry is an open
`[` below the current position, and the segment from just past each entry
up to the next-shallower landmark is balanced. -/
def stackSeg (full : List Command) : Nat → List Nat → Prop
  | _, [] => True
  | n, s :: rest =>
    s < n ∧ full[s]? = some Command.jmpFwd ∧
      balanced ((full.take n).drop (s + 1)) ∧ stackSeg full s rest

theorem stackSeg_mem (full : List Command) :
    ∀ (n : Nat) (jmps : List Nat), stackSeg full n jmps →
    ∀ s ∈ jmps, s < n ∧ full[s]? = some Command.jmpFwd := by
  intro n jmps
  induction jmps generalizing n with
  | nil =>
    intro _ s hs
    exact absurd hs (List.not_mem_nil s)
  | cons a rest ih =>
    rintro ⟨ha, hfa, _, hrest⟩ s hs
    rcases List.mem_cons.mp hs with rfl | hs
    · exact ⟨ha, hfa⟩
    · have hm := ih a hrest s hs
      exact ⟨hm.1.trans ha, hm.2⟩

theorem lookup_cons (k a b : Nat) (t : List (Nat × Nat)) :
    List.lookup k ((a, b) :: t) = if k = a then some b else List.lookup k t := by
  by_cases h : k = a
  · simp [List.lookup, h]
  · have hb : (k == a) = false := beq_eq_false_iff_ne.mpr h
    simp [List.lookup, hb, h]

theorem countCmd_append (t : Command) (l1 l2 : List Command) :
    countCmd t (l1 ++ l2) = countCmd t l1 + countCmd t l2 := by
  induction l1 with
  | nil => simp [countCmd]
  | cons c l1 ih =>
    simp [countCmd, ih]
    omega

/-- Scan invariant of the jump-table construction loop after processing the
first `n` commands of `full`: the pending stack is a chain of open `[`
positions with balanced segments between consecutive landmarks, the table
built so far is symmetric, pairs only matched brackets below `n`, and every
bracket position below `n` is either matched or still pending. -/
structure Inv (full : List Command) (n : Nat) (jmps : List Nat)
    (table : List (Nat × Nat)) : Prop where
  stack : stackSeg full n jmps
  stackFresh : ∀ s ∈ jmps, table.lookup s = none
  symm : ∀ k j, table.lookup k = some j → table.lookup j = some k
  keysLt : ∀ k j, table.lookup k = some j → k < n ∧ j < n
  partners : ∀ k j, table.lookup k = some j → isMatch full (min k j) (max k j)
  backDone : ∀ k, k < n → full[k]? = some Command.jmpBack →
    (table.lookup k).isSome = true
  fwdDone : ∀ k, k < n → full[k]? = some Command.jmpFwd →
    (table.lookup k).isSome = true ∨ k ∈ jmps
  cnt : jmps.length + countCmd Command.jmpBack (full.take n) =
    countCmd Command.jmpFwd (full.take n)

theorem inv_step_neutral (full : List Command) (n : Nat) (c : Command)
    (jmps : List Nat) (table : List (Nat × Nat))
    (hn : full[n]? = some c) (hf : c ≠ Command.jmpFwd) (hb : c ≠ Command.jmpBack)
    (h : Inv full n jmps table) : Inv full (n + 1) jmps table := by
  obtain ⟨A, B, C, D, E, F, G, H⟩ := h
  have htake : full.take (n + 1) = full.take n ++ [c] := by
    rw [List.take_succ, hn]
    rfl
  refine ⟨?_, B, C, ?_, E, ?_, ?_, ?_⟩
  · cases jmps with
    | nil => trivial
    | cons s rest =>
      obtain ⟨hs, hsf, hbal, hrest⟩ := A
      refine ⟨by omega, hsf, ?_, hrest⟩
      rw [seg_snoc full c (s + 1) n (by omega) hn]
      exact balanced_neutral _ c hf hb hbal
  · exact fun k j hkj =>
      ⟨Nat.lt_succ_of_lt (D k j hkj).1, Nat.lt_succ_of_lt (D k j hkj).2⟩
  · intro k hk hkb
    rcases Nat.lt_succ_iff_lt_or_eq.mp hk with hk' | rfl
    · exact F k hk' hkb
    · rw [hn] at hkb
      injection hkb with hkb
      exact absurd hkb hb
  · intro k hk hkf
    rcases Nat.lt_succ_iff_lt_or_eq.mp hk with hk' | rfl
    · exact G k hk' hkf
    · rw [hn] at hkf
      injection hkf with hkf
      exact absurd hkf hf
  · rw [htake, countCmd_append, countCmd_append]
    rw [show countCmd Command.jmpBack [c] = 0 from by
      rw [countCmd, countCmd, if_neg hb]]
    rw [show countCmd Command.jmpFwd [c] = 0 from by
      rw [countCmd, countCmd, if_neg hf]]
    omega

theorem inv_step_fwd (full : List Command) (n : Nat) (jmps : List Nat)
    (table : List (Nat × Nat)) (hn : full[n]? = some Command.jmpFwd)
    (h : Inv full n jmps table) : Inv full (n + 1) (n :: jmps) table := by
  obtain ⟨A, B, C, D, E, F, G, H⟩ := h
  have htake : full.take (n + 1) = full.take n ++ [Command.jmpFwd] := by
    rw [List.take_succ, hn]
    rfl
  have hlookup_n : table.lookup n = none := by
    rcases hl : table.lookup n with _ | j
    · rfl
    · exact absurd (D n j hl).1 (lt_irrefl n)
  refine ⟨?_, ?_, C, ?_, E, ?_, ?_, ?_⟩
  · refine ⟨Nat.lt_succ_self n, hn, ?_, A⟩
    rw [List.drop_eq_nil_of_le (by rw [List.length_take]; omega)]
    exact balanced_nil
  · intro s hs
    rcases List.mem_cons.mp hs with rfl | hs
    · exact hlookup_n
    · exact B s hs
  · exact fun k j hkj =>
      ⟨Nat.lt_succ_of_lt (D k j hkj).1, Nat.lt_succ_of_lt (D k j hkj).2⟩
  · intro k hk hkb
    rcases Nat.lt_succ_iff_lt_or_eq.mp hk with hk' | rfl
    · exact F k hk' hkb
    · rw [hn] at hkb
      injection hkb with hkb
      exact absurd hkb (by decide)
  · intro k hk hkf
    rcases Nat.lt_succ_iff_lt_or_eq.mp hk with hk' | rfl
    · rcases G k hk' hkf with hG | hG
      · exact Or.inl hG
      · exact Or.inr (List.mem_cons_of_mem n hG)
    · exact Or.inr (List.mem_cons_self k jmps)
  · rw [htake, countCmd_append, countCmd_append]
    rw [show countCmd Command.jmpBack [Command.jmpFwd] = 0 from by decide]
    rw [show countCmd Command.jmpFwd [Command.jmpFwd] = 1 from by decide]
    simp only [List.length_cons]
    omega
theorem inv_step_back (full : List Command) (n s : Nat) (rest : List Nat)
    (table : List (Nat × Nat)) (hn : full[n]? = some Command.jmpBack)
    (h : Inv full n (s :: rest) table) :
    Inv full (n + 1) rest ((n, s) :: (s, n) :: table) := by
  obtain ⟨A, B, C, D, E, F, G, H⟩ := h
  obtain ⟨hsn, hsf, hbal, hrest⟩ := A
  have hnlen : n < full.length := (List.getElem?_eq_some.mp hn).1
  have htake : full.take (n + 1) = full.take n ++ [Command.jmpBack] := by
    rw [List.take_succ, hn]
    rfl
  have hsN : table.lookup s = none := B s (List.mem_cons_self s rest)
  have hlook : ∀ x, List.lookup x ((n, s) :: (s, n) :: table) =
      if x = n then some s else if x = s then some n else table.lookup x := by
    intro x
    rw [lookup_cons, lookup_cons]
  refine ⟨?_, ?_, ?_, ?_, ?_, ?_, ?_, ?_⟩
  · -- stackSeg full (n + 1) rest
    cases rest with
    | nil => trivial
    | cons s' rest' =>
      obtain ⟨hs's, hs'f, hbal', hrest'⟩ := hrest
      refine ⟨by omega, hs'f, ?_, hrest'⟩
      rw [seg_snoc full Command.jmpBack (s' + 1) n (by omega) hn]
      rw [seg_trans full (s' + 1) (s + 1) n (by omega) (by omega) (by omega)]
      rw [seg_snoc full Command.jmpFwd (s' + 1) s (by omega) hsf]
      have hw := balanced_wrap ((full.take s).drop (s' + 1))
        ((full.take n).drop (s + 1)) hbal' hbal
      simpa [List.append_assoc] using hw
  · -- stackFresh
    intro x hx
    have hxs := (stackSeg_mem full s rest hrest x hx).1
    rw [hlook x, if_neg (by omega), if_neg (by omega)]
    exact B x (List.mem_cons_of_mem s hx)
  · -- symmetry
    intro k j hkj
    rw [hlook k] at hkj
    rw [hlook j]
    by_cases hk_n : k = n
    · rw [if_pos hk_n] at hkj
      injection hkj with hkj
      subst hkj
      rw [if_neg (by omega), if_pos rfl]
      exact congrArg some hk_n.symm
    · rw [if_neg hk_n] at hkj
      by_cases hk_s : k = s
      · rw [if_pos hk_s] at hkj
        injection hkj with hkj
        subst hkj
        rw [if_pos rfl]
        exact congrArg some hk_s.symm
      · rw [if_neg hk_s] at hkj
        have hsymm := C k j hkj
        have hjn : j ≠ n := by
          have hd := D k j hkj
          omega
        have hjs : j ≠ s := by
          intro hj
          subst hj
          rw [hsN] at hsymm
          exact Option.noConfusion hsymm
        rw [if_neg hjn, if_neg hjs]
        exact hsymm
  · -- keysLt
    intro k j hkj
    rw [hlook k] at hkj
    by_cases hk_n : k = n
    · rw [if_pos hk_n] at hkj
      injection hkj with hkj
      omega
    · rw [if_neg hk_n] at hkj
      by_cases hk_s : k = s
      · rw [if_pos hk_s] at hkj
        injection hkj with hkj
        omega
      · rw [if_neg hk_s] at hkj
        have hd := D k j hkj
        omega
  · -- partners
    intro k j hkj
    rw [hlook k] at hkj
    by_cases hk_n : k = n
    · rw [if_pos hk_n] at hkj
      injection hkj with hkj
      rw [hk_n, ← hkj]
      rw [show min n s = s from by omega, show max n s = n from by omega]
      exact ⟨hsf, hn, hsn, hbal⟩
    · rw [if_neg hk_n] at hkj
      by_cases hk_s : k = s
      · rw [if_pos hk_s] at hkj
        injection hkj with hkj
        rw [hk_s, ← hkj]
        rw [show min s n = s from by omega, show max s n = n from by omega]
        exact ⟨hsf, hn, hsn, hbal⟩
      · rw [if_neg hk_s] at hkj
        exact E k j hkj
  · -- backDone
    intro k hk hkb
    rw [hlook k]
    by_cases hk_n : k = n
    · rw [if_pos hk_n]
      rfl
    · rw [if_neg hk_n]
      by_cases hk_s : k = s
      · rw [if_pos hk_s]
        rfl
      · rw [if_neg hk_s]
        exact F k (by omega) hkb
  · -- fwdDone
    intro k hk hkf
    by_cases hk_n : k = n
    · subst hk_n
      rw [hn] at hkf
      injection hkf with hkf
      exact absurd hkf (by decide)
    · rw [hlook k]
      by_cases hk_s : k = s
      · rw [if_neg hk_n, if_pos hk_s]
        exact Or.inl rfl
      · rw [if_neg hk_n, if_neg hk_s]
        rcases G k (by omega) hkf with hG | hG
        · exact Or.inl hG
        · rcases List.mem_cons.mp hG with rfl | hG'
          · exact absurd rfl hk_s
          · exact Or.inr hG'
  · -- cnt
    rw [htake, countCmd_append, countCmd_append]
    rw [show countCmd Command.jmpBack [Command.jmpBack] = 1 from by decide]
    rw [show countCmd Command.jmpFwd [Command.jmpBack] = 0 from by decide]
    simp only [List.length_cons] at H
    omega
theorem buildGo_inv (cs : List Command) :
    ∀ (pre : List Command) (jmps : List Nat) (table : List (Nat × Nat))
      (t : List (Nat × Nat)),
    buildGo cs pre.length jmps table = some t →
    Inv (pre ++ cs) pre.length jmps table →
    ∃ jend, Inv (pre ++ cs) (pre ++ cs).length jend t := by
  induction cs with
  | nil =>
    intro pre jmps table t hgo hInv
    simp only [buildGo] at hgo
    injection hgo with hgo
    subst hgo
    exact ⟨jmps, by simpa using hInv⟩
  | cons c cs ih =>
    intro pre jmps table t hgo hInv
    have hfullc : (pre ++ c :: cs)[pre.length]? = some c := by
      rw [List.getElem?_append_right (le_refl pre.length)]
      simp
    have hassoc : pre ++ c :: cs = (pre ++ [c]) ++ cs := by
      simp
    have hlen1 : (pre ++ [c]).length = pre.length + 1 := by simp
    cases c
    case jmpFwd =>
      rw [show buildGo (Command.jmpFwd :: cs) pre.length jmps table =
        buildGo cs (pre.length + 1) (pre.length :: jmps) table from rfl] at hgo
      have hInv' : Inv (pre ++ Command.jmpFwd :: cs) (pre.length + 1)
          (pre.length :: jmps) table := inv_step_fwd _ _ _ _ hfullc hInv
      rw [hassoc] at hInv' ⊢
      rw [← hlen1] at hInv' hgo
      exact ih (pre ++ [Command.jmpFwd]) _ _ _ hgo hInv'
    case jmpBack =>
      cases jmps with
      | nil => exact Option.noConfusion hgo
      | cons s rest =>
        rw [show buildGo (Command.jmpBack :: cs) pre.length (s :: rest) table =
          buildGo cs (pre.length + 1) rest
            ((pre.length, s) :: (s, pre.length) :: table) from rfl] at hgo
        have hInv' := inv_step_back _ _ _ _ _ hfullc hInv
        rw [hassoc] at hInv' ⊢
        rw [← hlen1] at hInv' hgo
        exact ih (pre ++ [Command.jmpBack]) _ _ _ hgo hInv'
    all_goals (
      rw [buildGo_cons_neutral _ (by decide) (by decide)] at hgo
      have hInv' := inv_step_neutral _ _ _ _ _ hfullc (by decide) (by decide) hInv
      rw [hassoc] at hInv' ⊢
      rw [← hlen1] at hInv' hgo
      exact ih _ _ _ _ hgo hInv')
/-- Claim C5 as amended: for every instruction sequence accepted by
construction, the jump table is symmetric (`table[table[i]] = i` for every
key `i`), every key is a bracket index, every entry pairs an index with its
actual matching partner — the `[` and `]` enclosing a balanced inner
segment, i.e. LIFO nesting — every `JumpIfNonZero` index is a key, and
when additionally the sequence is bracket-balanced overall (equally many
`JumpIfZero` and `JumpIfNonZero`, so no pending positions are left over)
every `JumpIfZero` index is a key as well. -/
theorem jump_table_correct (cs : List Command) (p : Program)
    (hp : Program.new cs = some p) :
    (∀ i j, p.jmptable.lookup i = some j → p.jmptable.lookup j = some i) ∧
    (∀ i j, p.jmptable.lookup i = some j → isMatch cs (min i j) (max i j)) ∧
    (∀ i j, p.jmptable.lookup i = some j →
      cs[i]? = some Command.jmpFwd ∨ cs[i]? = some Command.jmpBack) ∧
    (∀ i, cs[i]? = some Command.jmpBack → (p.jmptable.lookup i).isSome = true) ∧
    (countCmd Command.jmpFwd cs = countCmd Command.jmpBack cs →
      ∀ i, cs[i]? = some Command.jmpFwd → (p.jmptable.lookup i).isSome = true) := by
  rcases ht : buildTable cs with _ | t
  · rw [Program.new, ht] at hp
    exact Option.noConfusion hp
  · rw [Program.new, ht, Option.map_some'] at hp
    injection hp with hp
    subst hp
    have hInv0 : Inv ([] ++ cs) ([] : List Command).length [] [] := by
      refine ⟨trivial, ?_, ?_, ?_, ?_, ?_, ?_, rfl⟩
      · intro s hs
        exact absurd hs (List.not_mem_nil s)
      · intro k j hkj
        exact Option.noConfusion hkj
      · intro k j hkj
        exact Option.noConfusion hkj
      · intro k j hkj
        exact Option.noConfusion hkj
      · intro k hk _
        exact absurd hk (Nat.not_lt_zero k)
      · intro k hk _
        exact absurd hk (Nat.not_lt_zero k)
    obtain ⟨jend, hInv⟩ := buildGo_inv cs [] [] [] t
      (by simpa [buildTable] using ht) hInv0
    simp only [List.nil_append] at hInv
    obtain ⟨A, B, C, D, E, F, G, H⟩ := hInv
    refine ⟨C, E, ?_, ?_, ?_⟩
    · intro i j hij
      obtain ⟨hf, hb, _, _⟩ := E i j hij
      rcases le_total i j with hle | hle
      · rw [min_eq_left hle] at hf
        exact Or.inl hf
      · rw [max_eq_left hle] at hb
        exact Or.inr hb
    · intro i hib
      exact F i (List.getElem?_eq_some.mp hib).1 hib
    · intro hcnt i hif
      rcases G i (List.getElem?_eq_some.mp hif).1 hif with hG | hG
      · exact hG
      · rw [List.take_length] at H
        have hlen0 : jend.length = 0 := by omega
        rw [List.length_eq_zero] at hlen0
        subst hlen0
        exact absurd hG (List.not_mem_nil i)

/-- Claim C5 counterexample: construction accepts `[JumpIfZero, JumpIfZero]`
(two unmatched `[`) yet produces an empty jump table, so the table is not
populated at the `JumpIfZero` indices 0 and 1 of this accepted sequence. -/
theorem jump_table_partial_cex :
    Program.new [Command.jmpFwd, Command.jmpFwd] =
      some ⟨[Command.jmpFwd, Command.jmpFwd], [], freshMemory⟩ ∧
    ([] : List (Nat × Nat)).lookup 0 = none := ⟨rfl, rfl⟩

theorem jump_table_correct_witness :
    ([(1, 0), (0, 1)] : List (Nat × Nat)).lookup 1 = some 0 ∧
    isMatch [Command.jmpFwd, Command.jmpBack] 0 1 ∧
    (([(1, 0), (0, 1)] : List (Nat × Nat)).lookup 1).isSome = true ∧
    (([(1, 0), (0, 1)] : List (Nat × Nat)).lookup 0).isSome = true := by
  have h := jump_table_correct [Command.jmpFwd, Command.jmpBack]
    ⟨[Command.jmpFwd, Command.jmpBack], [(1, 0), (0, 1)], freshMemory⟩ rfl
  refine ⟨h.1 0 1 rfl, ?_, h.2.2.2.1 1 rfl, h.2.2.2.2 rfl 0 rfl⟩
  have hm := h.2.1 0 1 rfl
  simpa using hm

end BF
